import Mathlib

/-!
Shallow embedding of the MPHC-256 digest core (`src/my_project/src/main.rs`).

Machine integers (`u128`) are modelled as `Nat` with explicit reduction
modulo `2 ^ 128` wherever the Rust code can wrap.  Strings are modelled by
their UTF-8 byte sequences (`List Nat`, each entry a byte value); the
bridge `utf8Bytes` uses Lean's UTF-8 encoder for concrete string-level
statements.  Thread spawning and joining are modelled by an explicit list
of scheduled units and a list of `Option` join outcomes (a `none` is a
lost unit, mirroring `if let Ok(..) = handle.join()`).
-/

namespace MPHC

/-- Number of rounds (`ROUNDS: usize = 256` in the source). -/
def ROUNDS : Nat := 256

/-- The large prime constant (`PRIME: u128 = 0x100000001b3`). -/
def PRIME : Nat := 0x100000001b3

/-- Rust `u128::rotate_left`: rotate the 128-bit value `v` left by `n` bits. -/
def rotl128 (v n : Nat) : Nat :=
  ((v <<< (n % 128)) % 2 ^ 128) ||| (v >>> (128 - n % 128))

/-- Rust `u128::rotate_right`: rotate the 128-bit value `v` right by `n` bits. -/
def rotr128 (v n : Nat) : Nat :=
  (v >>> (n % 128)) ||| ((v <<< (128 - n % 128)) % 2 ^ 128)

/-- Source `modular_non_linear_transform` (main.rs lines 24-27):
`(value ^ value.rotate_right(23)).wrapping_mul(PRIME) % 0xffffffffffffffff`. -/
def modular_non_linear_transform (value : Nat) : Nat :=
  let rotated := rotr128 value 23
  (((value ^^^ rotated) * PRIME) % 2 ^ 128) % 0xffffffffffffffff

/-- The 4-word (4 × u128) hash state. -/
structure HashState where
  s0 : Nat
  s1 : Nat
  s2 : Nat
  s3 : Nat
deriving DecidableEq, Repr

/-- The body of the `for i in 0..4` loop of `hash_round` (main.rs lines 35-41)
acting on one state word `w` with neighbor value `neighbor`: XOR with the
input, add `PRIME` with wrap, rotate left by `round % 16 + i * 8`, apply the
non-linear transform, and XOR with the neighbor. -/
def mixStep (w neighbor mixed_input round i : Nat) : Nat :=
  let x1 := w ^^^ mixed_input
  let x2 := (x1 + PRIME) % 2 ^ 128
  let x3 := rotl128 x2 (round % 16 + i * 8)
  let x4 := modular_non_linear_transform x3
  x4 ^^^ neighbor

/-- Source `hash_round` (main.rs lines 30-42): the four words are updated in
place in index order, each XORed at the end with `state[(i+1) % 4]` as it
stands at that moment — so `i = 0,1,2` read the pre-update neighbor and
`i = 3` reads the already-updated `state[0]`. -/
def hash_round (state : HashState) (mixed_input : Nat) (round : Nat) : HashState :=
  let t0 := mixStep state.s0 state.s1 mixed_input round 0
  let t1 := mixStep state.s1 state.s2 mixed_input round 1
  let t2 := mixStep state.s2 state.s3 mixed_input round 2
  let t3 := mixStep state.s3 t0 mixed_input round 3
  ⟨t0, t1, t2, t3⟩

/-- The initial 4-word state (main.rs lines 47-52). -/
def IV : HashState :=
  ⟨0x6a09e667f3bcc908, 0xbb67ae8584caa73b, 0x3c6ef372fe94f82b, 0xa54ff53a5f1d36f1⟩

/-- Indexing `state[i % 4]` on the 4-word state, as done by
`local_state[round % 4]` in the source. -/
def stateWord (s : HashState) (i : Nat) : Nat :=
  match i % 4 with
  | 0 => s.s0
  | 1 => s.s1
  | 2 => s.s2
  | _ => s.s3

/-- One scheduled unit of work: the captured base-state snapshot, the round
index, and the byte value (main.rs lines 59-73 create one per (round, byte)). -/
structure UnitComputation where
  baseState : HashState
  round : Nat
  byteValue : Nat
deriving DecidableEq, Repr

/-- Source line 62: `(round as u128).wrapping_add(PRIME) ^ (local_state[round % 4] & 0xff)`. -/
def dynamicSalt (base : HashState) (round : Nat) : Nat :=
  ((round + PRIME) % 2 ^ 128) ^^^ (stateWord base round &&& 0xff)

/-- Source line 63: `u128::from(byte).wrapping_add(dynamic_salt)`. -/
def mixedByte (base : HashState) (round byteValue : Nat) : Nat :=
  (byteValue + dynamicSalt base round) % 2 ^ 128

/-- The body of the spawned thread (main.rs lines 66-70): copy the captured
state and run one `hash_round` on it with the unit's mixed byte and round. -/
def runUnit (u : UnitComputation) : HashState :=
  hash_round u.baseState (mixedByte u.baseState u.round u.byteValue) u.round

/-- The scheduling loops (main.rs lines 59-74): for every round in `0..256`
and every byte of the combined input, in that nesting order, one unit is
scheduled carrying the snapshot `st` of the orchestrator state taken by
`state.clone()` — the orchestrator state is not written during scheduling,
so every unit carries the same snapshot. -/
def schedule (st : HashState) (combined : List Nat) : List UnitComputation :=
  (List.range ROUNDS).flatMap fun round =>
    combined.map fun b => ⟨st, round, b⟩

/-- Word-wise XOR of two 4-word states (the merge step, main.rs lines 79-81). -/
def xorState (a b : HashState) : HashState :=
  ⟨a.s0 ^^^ b.s0, a.s1 ^^^ b.s1, a.s2 ^^^ b.s2, a.s3 ^^^ b.s3⟩

/-- The all-zero 4-word state (identity of `xorState`). -/
def zeroState : HashState := ⟨0, 0, 0, 0⟩

/-- The join-and-merge loop (main.rs lines 77-83): walk the join outcomes in
scheduling order; an `Ok` result is XOR-merged into the accumulator, a failed
join (`none`) is skipped with no retry and no error. -/
def collectAndMerge (init : HashState) (outcomes : List (Option HashState)) : HashState :=
  outcomes.foldl
    (fun acc o =>
      match o with
      | some r => xorState acc r
      | none => acc)
    init

/-- Merging a list of unit results that all arrived (the all-`Ok` join). -/
def mergeResults (init : HashState) (results : List HashState) : HashState :=
  results.foldl xorState init

/-- Low-order 8 bytes of the little-endian representation of a 128-bit word
(`chunk.to_le_bytes()[..8]`, main.rs line 89). -/
def toLEBytes8 (w : Nat) : List Nat :=
  [w % 2 ^ 8, w / 2 ^ 8 % 2 ^ 8, w / 2 ^ 16 % 2 ^ 8, w / 2 ^ 24 % 2 ^ 8,
   w / 2 ^ 32 % 2 ^ 8, w / 2 ^ 40 % 2 ^ 8, w / 2 ^ 48 % 2 ^ 8, w / 2 ^ 56 % 2 ^ 8]

/-- The digest finalizer (main.rs lines 86-92): concatenate, in word order,
the low 8 little-endian bytes of each of the 4 state words. -/
def finalize (s : HashState) : List Nat :=
  toLEBytes8 s.s0 ++ toLEBytes8 s.s1 ++ toLEBytes8 s.s2 ++ toLEBytes8 s.s3

/-- The merged final state of `advanced_hash` on UTF-8 byte lists, in the run
where every spawned thread joins successfully (`Ok`). -/
def finalState (input salt pepper : List Nat) : HashState :=
  collectAndMerge IV (((schedule IV (pepper ++ input ++ salt)).map runUnit).map some)

/-- Source `advanced_hash` (main.rs lines 45-93) on UTF-8 byte lists, in the
run where every spawned thread joins successfully: build
`combined = pepper ++ input ++ salt`, schedule all units from the IV
snapshot, merge every result into the IV, and finalize to 32 bytes. -/
def advanced_hash (input salt pepper : List Nat) : List Nat :=
  finalize (finalState input salt pepper)

/-- The digest as a function of the combined byte sequence alone. -/
def hashCombined (combined : List Nat) : List Nat :=
  finalize (collectAndMerge IV (((schedule IV combined).map runUnit).map some))

/-- UTF-8 byte sequence of a string, as `combined_input.bytes()` yields it
(`String.toUTF8 s` is by definition `⟨⟨s.data.flatMap utf8EncodeChar⟩⟩`). -/
def utf8Bytes (s : String) : List Nat :=
  (s.data.flatMap String.utf8EncodeChar).map (fun b => b.toNat)

/-- Source `advanced_hash` on actual strings (arguments are `&str`). -/
def advanced_hash_str (input salt pepper : String) : List Nat :=
  advanced_hash (utf8Bytes input) (utf8Bytes salt) (utf8Bytes pepper)

/-- StateMixer as described in the design document (§4.2): an in-place pass
over the indices `0, 1, 2, 3` of a 4-entry word array, where the final XOR
reads the neighbor entry `(i+1) % 4` as the array stands at that moment. -/
def stateMixer_spec (state : List Nat) (mixedInput : Nat) (round : Nat) : List Nat :=
  (List.range 4).foldl
    (fun st i =>
      let v := st.getD i 0
      let a := v ^^^ mixedInput
      let b := (a + PRIME) % 2 ^ 128
      let c := rotl128 b (round % 16 + i * 8)
      let d := modular_non_linear_transform c
      st.set i (d ^^^ st.getD ((i + 1) % 4) 0))
    state

/-- UnitComputation as described in the design document (§4.3): derive the
dynamic salt, add it to the byte value with wrap, copy the base state, and
run the state mixer on the copy exactly once. -/
def unitComputation_spec (base : HashState) (round byteValue : Nat) : HashState :=
  let ds := ((round + PRIME) % 2 ^ 128) ^^^ (stateWord base round &&& 0xff)
  let mb := (byteValue + ds) % 2 ^ 128
  hash_round base mb round

/-- NonLinearTransform as described in the design document (§4.1):
`(value XOR rotate_right(value, 23)) * PRIME mod (2^64 - 1)`, with the
multiplication performed as wrapping 128-bit multiplication. -/
def nonLinearTransform_spec (value : Nat) : Nat :=
  (((value ^^^ rotr128 value 23) * PRIME) % 2 ^ 128) % (2 ^ 64 - 1)

/-- All four words of a state are below `2 ^ 64`. -/
def wordsLt64 (s : HashState) : Prop :=
  s.s0 < 2 ^ 64 ∧ s.s1 < 2 ^ 64 ∧ s.s2 < 2 ^ 64 ∧ s.s3 < 2 ^ 64

instance (s : HashState) : Decidable (wordsLt64 s) := by
  unfold wordsLt64; infer_instance

/-- XOR-fold of a list of unit results, with the all-zero state as unit. -/
def xorFold (l : List HashState) : HashState :=
  l.foldr xorState zeroState

/-! ### Algebra of the word-wise XOR merge -/

theorem xorState_comm (a b : HashState) : xorState a b = xorState b a := by
  cases a; cases b; simp [xorState, Nat.xor_comm]

theorem xorState_assoc (a b c : HashState) :
    xorState (xorState a b) c = xorState a (xorState b c) := by
  cases a; cases b; cases c; simp [xorState, Nat.xor_assoc]

theorem xorState_self (a : HashState) : xorState a a = zeroState := by
  cases a; simp [xorState, zeroState]

theorem xorState_zero (a : HashState) : xorState a zeroState = a := by
  cases a; simp [xorState, zeroState]

theorem zero_xorState (a : HashState) : xorState zeroState a = a := by
  cases a; simp [xorState, zeroState]

theorem xorState_cancel {a b : HashState} (h : xorState a b = zeroState) : a = b := by
  have hb : xorState a (xorState a b) = b := by
    rw [← xorState_assoc, xorState_self, zero_xorState]
  rw [h, xorState_zero] at hb
  exact hb

theorem xorFold_nil : xorFold [] = zeroState := rfl

theorem xorFold_cons (a : HashState) (l : List HashState) :
    xorFold (a :: l) = xorState a (xorFold l) := rfl

theorem xorFold_append (l1 l2 : List HashState) :
    xorFold (l1 ++ l2) = xorState (xorFold l1) (xorFold l2) := by
  induction l1 with
  | nil => simp [xorFold_nil, zero_xorState]
  | cons a t ih => simp [xorFold_cons, ih, xorState_assoc]

theorem xorFold_perm {l1 l2 : List HashState} (p : l1.Perm l2) :
    xorFold l1 = xorFold l2 := by
  induction p with
  | nil => rfl
  | cons x _ ih => simp [xorFold_cons, ih]
  | swap x y l =>
      simp only [xorFold_cons]
      rw [← xorState_assoc, xorState_comm y x, xorState_assoc]
  | trans _ _ ih1 ih2 => exact ih1.trans ih2

theorem mergeResults_eq_xorFold (l : List HashState) (init : HashState) :
    mergeResults init l = xorState init (xorFold l) := by
  induction l generalizing init with
  | nil => simp [mergeResults, xorFold_nil, xorState_zero]
  | cons a t ih =>
      show mergeResults (xorState init a) t = _
      rw [ih, xorFold_cons, xorState_assoc]

theorem collectAndMerge_eq_filterMap (outcomes : List (Option HashState)) (init : HashState) :
    collectAndMerge init outcomes = mergeResults init (outcomes.filterMap id) := by
  induction outcomes generalizing init with
  | nil => rfl
  | cons o t ih =>
      cases o with
      | none =>
          show collectAndMerge init t = _
          rw [ih]; rfl
      | some r =>
          show collectAndMerge (xorState init r) t = _
          rw [ih]; rfl

theorem collectAndMerge_map_some (results : List HashState) (init : HashState) :
    collectAndMerge init (results.map some) = mergeResults init results := by
  rw [collectAndMerge_eq_filterMap, List.filterMap_map]
  simp [Function.comp]

/-! ### Structure of the schedule -/

theorem flatMap_blocks_length (st : HashState) (c : List Nat) (rs : List Nat) :
    (rs.flatMap fun r => c.map fun b => (⟨st, r, b⟩ : UnitComputation)).length
      = rs.length * c.length := by
  induction rs with
  | nil => simp
  | cons a t ih =>
      rw [List.flatMap_cons, List.length_append, List.length_map, ih, List.length_cons]
      ring

theorem schedule_length (st : HashState) (c : List Nat) :
    (schedule st c).length = ROUNDS * c.length := by
  rw [schedule, flatMap_blocks_length, List.length_range]

theorem schedule_mem {st : HashState} {c : List Nat} {u : UnitComputation}
    (h : u ∈ schedule st c) :
    u.baseState = st ∧ u.round < ROUNDS ∧ u.byteValue ∈ c := by
  rw [schedule, List.mem_flatMap] at h
  obtain ⟨r, hr, hu⟩ := h
  rw [List.mem_map] at hu
  obtain ⟨b, hb, rfl⟩ := hu
  exact ⟨rfl, List.mem_range.mp hr, hb⟩

theorem block_filter_self (st : HashState) (c : List Nat) (r : Nat) :
    ((c.map fun b => (⟨st, r, b⟩ : UnitComputation)).filter fun u => u.round == r)
      = c.map fun b => ⟨st, r, b⟩ := by
  induction c with
  | nil => rfl
  | cons b t ih => simp [List.filter_cons, ih]

theorem block_filter_other (st : HashState) (c : List Nat) {r2 r : Nat} (h : r2 ≠ r) :
    ((c.map fun b => (⟨st, r2, b⟩ : UnitComputation)).filter fun u => u.round == r) = [] := by
  induction c with
  | nil => rfl
  | cons b t ih =>
      simp only [List.map_cons, List.filter_cons]
      rw [show ((⟨st, r2, b⟩ : UnitComputation).round == r) = false from
        beq_eq_false_iff_ne.mpr h]
      exact ih

theorem flatMap_filter_round_nil (st : HashState) (c : List Nat) (r : Nat) :
    ∀ rs : List Nat, r ∉ rs →
      ((rs.flatMap fun r2 => c.map fun b => (⟨st, r2, b⟩ : UnitComputation)).filter
        fun u => u.round == r) = [] := by
  intro rs
  induction rs with
  | nil => intro _; rfl
  | cons a t ih =>
      intro h
      have h1 : a ≠ r := fun e => h (List.mem_cons.mpr (Or.inl e.symm))
      have h2 : r ∉ t := fun e => h (List.mem_cons.mpr (Or.inr e))
      rw [List.flatMap_cons, List.filter_append, block_filter_other st c h1, ih h2]
      rfl

theorem flatMap_filter_round (st : HashState) (c : List Nat) (r : Nat) :
    ∀ rs : List Nat, rs.Nodup → r ∈ rs →
      ((rs.flatMap fun r2 => c.map fun b => (⟨st, r2, b⟩ : UnitComputation)).filter
        fun u => u.round == r) = c.map fun b => ⟨st, r, b⟩ := by
  intro rs
  induction rs with
  | nil => intro _ hmem; exact absurd hmem (List.not_mem_nil r)
  | cons a t ih =>
      intro hnd hmem
      rw [List.flatMap_cons, List.filter_append]
      by_cases har : a = r
      · subst har
        rw [block_filter_self, flatMap_filter_round_nil st c a t (List.nodup_cons.mp hnd).1,
          List.append_nil]
      · rw [block_filter_other st c har, List.nil_append]
        refine ih (List.nodup_cons.mp hnd).2 ?_
        rcases List.mem_cons.mp hmem with e | hm
        · exact absurd e.symm har
        · exact hm

theorem schedule_filter_round (st : HashState) (c : List Nat) {r : Nat} (hr : r < ROUNDS) :
    ((schedule st c).filter fun u => u.round == r).map (fun u => u.byteValue) = c := by
  rw [schedule,
    flatMap_filter_round st c r (List.range ROUNDS) (List.nodup_range ROUNDS)
      (List.mem_range.mpr hr),
    List.map_map]
  exact List.map_id c

/-! ### Per-round decomposition of the XOR merge and the parity argument -/

theorem xorFold_flatMap_blocks (st : HashState) (c : List Nat) (rs : List Nat) :
    xorFold ((rs.flatMap fun r => c.map fun b => (⟨st, r, b⟩ : UnitComputation)).map runUnit)
      = xorFold (rs.map fun r =>
          xorFold ((c.map fun b => (⟨st, r, b⟩ : UnitComputation)).map runUnit)) := by
  induction rs with
  | nil => rfl
  | cons a t ih =>
      rw [List.flatMap_cons, List.map_append, xorFold_append, ih, List.map_cons, xorFold_cons]

theorem xorFold_map_eq_zero (g : Nat → HashState) :
    ∀ (n : Nat) (c : List Nat), c.length ≤ n → (∀ b, c.count b % 2 = 0) →
      xorFold (c.map g) = zeroState := by
  intro n
  induction n with
  | zero =>
      intro c hc _
      have hnil : c = [] := List.length_eq_zero.mp (Nat.le_zero.mp hc)
      subst hnil; rfl
  | succ n ih =>
      intro c hc hcount
      cases c with
      | nil => rfl
      | cons a t =>
          have h1 : t.count a % 2 = 1 := by
            have h := hcount a
            rw [List.count_cons_self] at h
            omega
          have hmem : a ∈ t := List.count_pos_iff.mp (by omega)
          obtain ⟨t1, t2, rfl⟩ := List.append_of_mem hmem
          have hp : (a :: (t1 ++ a :: t2)).Perm (a :: a :: (t1 ++ t2)) :=
            List.Perm.cons a List.perm_middle
          rw [xorFold_perm (hp.map g), List.map_cons, List.map_cons, xorFold_cons, xorFold_cons,
            ← xorState_assoc, xorState_self, zero_xorState]
          refine ih (t1 ++ t2) ?_ ?_
          · have hl := hc
            simp only [List.length_cons, List.length_append] at hl ⊢
            omega
          · intro b
            have hb := hcount b
            by_cases hba : b = a
            · subst hba
              simp only [List.count_cons_self, List.count_append, List.count_cons_self] at hb ⊢
              have : (t1 ++ b :: t2).count b = t1.count b + (t2.count b + 1) := by
                rw [List.count_append, List.count_cons_self]
              omega
            · have e1 : (a :: (t1 ++ a :: t2)).count b = t1.count b + t2.count b := by
                rw [List.count_cons_of_ne hba, List.count_append, List.count_cons_of_ne hba]
              rw [e1] at hb
              rw [List.count_append]
              omega


theorem xorFold_map_parity (g : Nat → HashState) {c1 c2 : List Nat}
    (h : ∀ b, c1.count b % 2 = c2.count b % 2) :
    xorFold (c1.map g) = xorFold (c2.map g) := by
  have hz : xorFold ((c1 ++ c2).map g) = zeroState := by
    refine xorFold_map_eq_zero g (c1 ++ c2).length (c1 ++ c2) le_rfl ?_
    intro b
    rw [List.count_append]
    have hcnt := h b
    omega
  rw [List.map_append, xorFold_append] at hz
  exact xorState_cancel hz

theorem hashCombined_parity {c1 c2 : List Nat}
    (h : ∀ b, c1.count b % 2 = c2.count b % 2) :
    hashCombined c1 = hashCombined c2 := by
  unfold hashCombined
  rw [collectAndMerge_map_some, collectAndMerge_map_some, mergeResults_eq_xorFold,
    mergeResults_eq_xorFold, schedule, schedule, xorFold_flatMap_blocks, xorFold_flatMap_blocks]
  have hfun : (fun r => xorFold ((c1.map fun b => (⟨IV, r, b⟩ : UnitComputation)).map runUnit))
      = (fun r => xorFold ((c2.map fun b => (⟨IV, r, b⟩ : UnitComputation)).map runUnit)) := by
    funext r
    rw [List.map_map, List.map_map]
    exact xorFold_map_parity (fun b => runUnit ⟨IV, r, b⟩) h
  rw [hfun]

theorem hashCombined_perm {c1 c2 : List Nat} (p : c1.Perm c2) :
    hashCombined c1 = hashCombined c2 :=
  hashCombined_parity (fun b => by rw [p.count_eq])

theorem advanced_hash_eq_hashCombined (input salt pepper : List Nat) :
    advanced_hash input salt pepper = hashCombined (pepper ++ input ++ salt) := rfl

/-! ### Word bounds: every value involved in the pipeline stays below 2^64 -/

theorem nlt_lt_64 (v : Nat) : modular_non_linear_transform v < 2 ^ 64 := by
  have h1 : (((v ^^^ rotr128 v 23) * PRIME) % 2 ^ 128) % 0xffffffffffffffff
      < 0xffffffffffffffff := Nat.mod_lt _ (by norm_num)
  have h2 : (0xffffffffffffffff : Nat) < 2 ^ 64 := by norm_num
  exact lt_trans (show modular_non_linear_transform v < 0xffffffffffffffff from h1) h2

theorem mixStep_lt_64 {neighbor : Nat} (h : neighbor < 2 ^ 64) (w m r i : Nat) :
    mixStep w neighbor m r i < 2 ^ 64 := by
  show modular_non_linear_transform _ ^^^ neighbor < 2 ^ 64
  exact Nat.xor_lt_two_pow (nlt_lt_64 _) h

theorem hash_round_wordsLt {s : HashState} (h : wordsLt64 s) (m r : Nat) :
    wordsLt64 (hash_round s m r) := by
  obtain ⟨h0, h1, h2, h3⟩ := h
  have t0 : mixStep s.s0 s.s1 m r 0 < 2 ^ 64 := mixStep_lt_64 h1 _ _ _ _
  have t1 : mixStep s.s1 s.s2 m r 1 < 2 ^ 64 := mixStep_lt_64 h2 _ _ _ _
  have t2 : mixStep s.s2 s.s3 m r 2 < 2 ^ 64 := mixStep_lt_64 h3 _ _ _ _
  have t3 : mixStep s.s3 (mixStep s.s0 s.s1 m r 0) m r 3 < 2 ^ 64 := mixStep_lt_64 t0 _ _ _ _
  exact ⟨t0, t1, t2, t3⟩

theorem xorState_wordsLt {a b : HashState} (ha : wordsLt64 a) (hb : wordsLt64 b) :
    wordsLt64 (xorState a b) := by
  obtain ⟨a0, a1, a2, a3⟩ := ha
  obtain ⟨b0, b1, b2, b3⟩ := hb
  exact ⟨Nat.xor_lt_two_pow a0 b0, Nat.xor_lt_two_pow a1 b1,
    Nat.xor_lt_two_pow a2 b2, Nat.xor_lt_two_pow a3 b3⟩

theorem IV_wordsLt : wordsLt64 IV := by decide

theorem collectAndMerge_wordsLt :
    ∀ (outcomes : List (Option HashState)) (init : HashState), wordsLt64 init →
      (∀ s, some s ∈ outcomes → wordsLt64 s) → wordsLt64 (collectAndMerge init outcomes) := by
  intro outcomes
  induction outcomes with
  | nil => intro init hi _; exact hi
  | cons o t ih =>
      intro init hi hall
      cases o with
      | none => exact ih init hi (fun s hs => hall s (List.mem_cons_of_mem _ hs))
      | some r =>
          exact ih (xorState init r)
            (xorState_wordsLt hi (hall r (List.mem_cons_self _ _)))
            (fun s hs => hall s (List.mem_cons_of_mem _ hs))

theorem finalState_wordsLt (input salt pepper : List Nat) :
    wordsLt64 (finalState input salt pepper) := by
  refine collectAndMerge_wordsLt _ IV IV_wordsLt ?_
  intro s hs
  rw [List.mem_map] at hs
  obtain ⟨s2, hs2, he⟩ := hs
  obtain rfl := Option.some.inj he
  rw [List.mem_map] at hs2
  obtain ⟨u, hu, rfl⟩ := hs2
  have hbase := (schedule_mem hu).1
  show wordsLt64 (hash_round u.baseState (mixedByte u.baseState u.round u.byteValue) u.round)
  rw [hbase]
  exact hash_round_wordsLt IV_wordsLt _ _

/-! ### The truncation to the low 8 bytes is lossless on bounded words -/

theorem toLEBytes8_inj {w w2 : Nat} (hw : w < 2 ^ 64) (hw2 : w2 < 2 ^ 64)
    (h : toLEBytes8 w = toLEBytes8 w2) : w = w2 := by
  have e : ∀ k, (toLEBytes8 w).getD k 0 = (toLEBytes8 w2).getD k 0 := fun k => by rw [h]
  have e0 : w % 2 ^ 8 = w2 % 2 ^ 8 := e 0
  have e1 : w / 2 ^ 8 % 2 ^ 8 = w2 / 2 ^ 8 % 2 ^ 8 := e 1
  have e2 : w / 2 ^ 16 % 2 ^ 8 = w2 / 2 ^ 16 % 2 ^ 8 := e 2
  have e3 : w / 2 ^ 24 % 2 ^ 8 = w2 / 2 ^ 24 % 2 ^ 8 := e 3
  have e4 : w / 2 ^ 32 % 2 ^ 8 = w2 / 2 ^ 32 % 2 ^ 8 := e 4
  have e5 : w / 2 ^ 40 % 2 ^ 8 = w2 / 2 ^ 40 % 2 ^ 8 := e 5
  have e6 : w / 2 ^ 48 % 2 ^ 8 = w2 / 2 ^ 48 % 2 ^ 8 := e 6
  have e7 : w / 2 ^ 56 % 2 ^ 8 = w2 / 2 ^ 56 % 2 ^ 8 := e 7
  omega

theorem toLEBytes8_length (w : Nat) : (toLEBytes8 w).length = 8 := rfl

theorem finalize_inj {s t : HashState} (hs : wordsLt64 s) (ht : wordsLt64 t)
    (h : finalize s = finalize t) : s = t := by
  unfold finalize at h
  have h1 := List.append_inj h (by simp [List.length_append, toLEBytes8_length])
  obtain ⟨h12, h3⟩ := h1
  have h2 := List.append_inj h12 (by simp [List.length_append, toLEBytes8_length])
  obtain ⟨h01, h2b⟩ := h2
  have h0 := List.append_inj h01 (by simp [toLEBytes8_length])
  obtain ⟨h0a, h1b⟩ := h0
  obtain ⟨hs0, hs1, hs2, hs3⟩ := hs
  obtain ⟨ht0, ht1, ht2, ht3⟩ := ht
  cases s
  cases t
  simp only [HashState.mk.injEq]
  exact ⟨toLEBytes8_inj hs0 ht0 h0a, toLEBytes8_inj hs1 ht1 h1b,
    toLEBytes8_inj hs2 ht2 h2b, toLEBytes8_inj hs3 ht3 h3⟩

/-! ### The claims -/

/-- Claim C1: for a fixed (input, salt, pepper), assuming every scheduled unit
reports its result, `advanced_hash` is deterministic — repeated invocations
return identical digests — and the merged final state is independent of the
order in which unit results are XOR-merged into the accumulator: any
permutation of the collection of unit results yields the same `HashState`. -/
theorem C1_deterministic_and_order_free :
    (∀ input salt pepper : List Nat,
      advanced_hash input salt pepper = advanced_hash input salt pepper) ∧
    (∀ (init : HashState) (results1 results2 : List HashState), results1.Perm results2 →
      mergeResults init results1 = mergeResults init results2) := by
  refine ⟨fun _ _ _ => rfl, ?_⟩
  intro init r1 r2 p
  rw [mergeResults_eq_xorFold, mergeResults_eq_xorFold, xorFold_perm p]

/-- Witness for claim C1 at a concrete two-element permutation. -/
theorem C1_deterministic_and_order_free_witness :
    mergeResults IV [zeroState, IV] = mergeResults IV [IV, zeroState] :=
  C1_deterministic_and_order_free.2 IV [zeroState, IV] [IV, zeroState]
    (List.Perm.swap IV zeroState [])

/-- Counterexample to claim C2: replacing the single character U+1001 of the
input with U+1040 is a single-character change, but it only swaps two UTF-8
continuation bytes of the combined input, and the two digests coincide. -/
theorem C2_counterexample :
    ("ခ" : String).length = 1 ∧ ("၀" : String).length = 1 ∧ ("ခ" : String) ≠ "၀" ∧
    advanced_hash_str "ခ" "S1" "P1" = advanced_hash_str "၀" "S1" "P1" := by
  refine ⟨by decide, by decide, by decide, ?_⟩
  show hashCombined (utf8Bytes "P1" ++ utf8Bytes "ခ" ++ utf8Bytes "S1")
    = hashCombined (utf8Bytes "P1" ++ utf8Bytes "၀" ++ utf8Bytes "S1")
  have h1 : utf8Bytes "P1" ++ utf8Bytes "ခ" ++ utf8Bytes "S1"
      = [80, 49, 225, 128, 129, 83, 49] := by decide
  have h2 : utf8Bytes "P1" ++ utf8Bytes "၀" ++ utf8Bytes "S1"
      = [80, 49, 225, 129, 128, 83, 49] := by decide
  rw [h1, h2]
  exact hashCombined_perm
    (List.Perm.cons 80 (List.Perm.cons 49 (List.Perm.cons 225
      (List.Perm.swap 129 128 [83, 49]))))

set_option maxRecDepth 1000000 in
/-- Claim C2 (amended): a single-character change to input, salt or pepper
need not change the digest — any change that leaves the multiset of bytes of
the combined input unchanged leaves the digest unchanged — but the concrete
instance holds: AdvancedHash("abc", "S1", "P1") and
AdvancedHash("abd", "S1", "P1") produce different outputs. -/
theorem C2_amended_sensitivity :
    (∀ input1 input2 salt pepper : String,
      (utf8Bytes pepper ++ utf8Bytes input1 ++ utf8Bytes salt).Perm
        (utf8Bytes pepper ++ utf8Bytes input2 ++ utf8Bytes salt) →
      advanced_hash_str input1 salt pepper = advanced_hash_str input2 salt pepper) ∧
    advanced_hash_str "abc" "S1" "P1" ≠ advanced_hash_str "abd" "S1" "P1" := by
  constructor
  · intro i1 i2 s p hp
    show hashCombined (utf8Bytes p ++ utf8Bytes i1 ++ utf8Bytes s)
      = hashCombined (utf8Bytes p ++ utf8Bytes i2 ++ utf8Bytes s)
    exact hashCombined_perm hp
  · decide

/-- Witness for claim C2 (amended): the inputs "ba" and "ab" permute the
combined byte sequence, so the digests agree. -/
theorem C2_amended_sensitivity_witness :
    advanced_hash_str "ba" "S1" "P1" = advanced_hash_str "ab" "S1" "P1" :=
  C2_amended_sensitivity.1 "ba" "ab" "S1" "P1"
    (List.Perm.cons 80 (List.Perm.cons 49 (List.Perm.swap 97 98 [83, 49])))

/-- Claim C3: every invocation schedules exactly one unit per (round, byte)
pair — `256 * length(combined)` units for `combined = pepper ++ input ++
salt` — and every unit carries the same base-state snapshot, the IV as it
existed before any unit ran; per round, the scheduled byte values are exactly
the combined input in byte order. -/
theorem C3_schedule_shape :
    ∀ input salt pepper : List Nat,
      (schedule IV (pepper ++ input ++ salt)).length
        = 256 * (pepper ++ input ++ salt).length ∧
      (∀ u ∈ schedule IV (pepper ++ input ++ salt), u.baseState = IV) ∧
      (∀ r, r < 256 →
        ((schedule IV (pepper ++ input ++ salt)).filter fun u => u.round == r).map
          (fun u => u.byteValue) = pepper ++ input ++ salt) := by
  intro input salt pepper
  refine ⟨?_, ?_, ?_⟩
  · rw [schedule_length]
    rfl
  · intro u hu
    exact (schedule_mem hu).1
  · intro r hr
    exact schedule_filter_round IV _ hr

/-- Witness for claim C3 at a concrete one-byte input, salt and pepper. -/
theorem C3_schedule_shape_witness :
    ((schedule IV ([80] ++ [97] ++ [83])).filter fun u => u.round == 7).map
      (fun u => u.byteValue) = [80] ++ [97] ++ [83] :=
  (C3_schedule_shape [97] [83] [80]).2.2 7 (by norm_num)

/-- Claim C4: a unit whose join fails is neither retried nor surfaced as an
error — its contribution is simply omitted from the XOR merge, the
accumulator contributed by the successfully joined units is unaffected, and
the digest is computed from whatever results did arrive. -/
theorem C4_lost_result_omitted :
    ∀ (init : HashState) (pre post : List (Option HashState)),
      collectAndMerge init (pre ++ none :: post) = collectAndMerge init (pre ++ post) ∧
      collectAndMerge init (pre ++ post) = mergeResults init ((pre ++ post).filterMap id) ∧
      finalize (collectAndMerge init (pre ++ none :: post))
        = finalize (mergeResults init ((pre ++ post).filterMap id)) := by
  intro init pre post
  have h1 : collectAndMerge init (pre ++ none :: post) = collectAndMerge init (pre ++ post) := by
    rw [collectAndMerge_eq_filterMap, collectAndMerge_eq_filterMap,
      List.filterMap_append, List.filterMap_append, List.filterMap_cons]
    rfl
  have h2 := collectAndMerge_eq_filterMap (pre ++ post) init
  exact ⟨h1, h2, by rw [h1, h2]⟩

/-- Claim C5 (implicit): assuming every unit reports, the digest is a function
of the parity of the byte counts of the combined input alone: two combined
inputs whose byte counts agree modulo 2 hash identically; in particular
permuting the bytes of the combined input, or appending the same byte block
twice to the input, leaves the digest unchanged. -/
theorem C5_parity_dependence :
    (∀ input salt pepper : List Nat,
      advanced_hash input salt pepper = hashCombined (pepper ++ input ++ salt)) ∧
    (∀ c1 c2 : List Nat, (∀ b, c1.count b % 2 = c2.count b % 2) →
      hashCombined c1 = hashCombined c2) ∧
    (∀ c1 c2 : List Nat, c1.Perm c2 → hashCombined c1 = hashCombined c2) ∧
    (∀ input cb salt pepper : List Nat,
      advanced_hash (input ++ cb ++ cb) salt pepper = advanced_hash input salt pepper) := by
  refine ⟨fun _ _ _ => rfl, fun c1 c2 h => hashCombined_parity h,
    fun c1 c2 p => hashCombined_perm p, ?_⟩
  intro i cb s p
  show hashCombined (p ++ (i ++ cb ++ cb) ++ s) = hashCombined (p ++ i ++ s)
  apply hashCombined_parity
  intro b
  simp only [List.count_append]
  omega

/-- Witness for claim C5 at a concrete two-element permutation of the
combined input. -/
theorem C5_parity_dependence_witness :
    hashCombined [1, 2] = hashCombined [2, 1] :=
  C5_parity_dependence.2.2.1 [1, 2] [2, 1] (List.Perm.swap 2 1 [])

set_option maxRecDepth 1000000 in
/-- Claim C6: the digest always has exactly 32 bytes, for every input
including all-empty strings, and `advanced_hash [] [] []` completes and
returns the finalization of the unmodified IV. -/
theorem C6_digest_shape :
    (∀ input salt pepper : List Nat, (advanced_hash input salt pepper).length = 32) ∧
    advanced_hash [] [] [] = finalize IV := by
  constructor
  · intro i s p
    rfl
  · decide

/-- Claim C7: the state mixer described step-by-step in the spec — an
in-place pass over indices 0..3 where each word is XORed with the input,
bumped by PRIME with wrap, rotated by `(round mod 16) + i*8`, passed through
the non-linear transform and XORed with the neighbor `(i+1) mod 4` as it
stands at the time of the XOR — computes exactly `hash_round`, and
`hash_round` is deterministic in its arguments. -/
theorem C7_state_mixer :
    (∀ s0 s1 s2 s3 mixed round : Nat,
      stateMixer_spec [s0, s1, s2, s3] mixed round =
        [(hash_round ⟨s0, s1, s2, s3⟩ mixed round).s0,
         (hash_round ⟨s0, s1, s2, s3⟩ mixed round).s1,
         (hash_round ⟨s0, s1, s2, s3⟩ mixed round).s2,
         (hash_round ⟨s0, s1, s2, s3⟩ mixed round).s3]) ∧
    (∀ (s : HashState) (mixed round : Nat), hash_round s mixed round = hash_round s mixed round) := by
  exact ⟨fun _ _ _ _ _ _ => rfl, fun _ _ _ => rfl⟩

/-- Claim C8: every scheduled unit computes the dynamic salt
`(round + PRIME) XOR (baseState[round mod 4] AND 0xff)`, the mixed byte
`byteValue + dynamicSalt` (wrapping modulo 2^128), copies the base snapshot
and runs the state mixer on it exactly once with `(mixedByte, round)`. -/
theorem C8_unit_formula :
    ∀ (st : HashState) (combined : List Nat) (u : UnitComputation),
      u ∈ schedule st combined →
      runUnit u = unitComputation_spec st u.round u.byteValue := by
  intro st c u hu
  have hb := (schedule_mem hu).1
  unfold runUnit unitComputation_spec
  rw [hb]
  rfl

/-- Witness for claim C8 at the concrete unit (round 3, byte 97). -/
theorem C8_unit_formula_witness :
    runUnit ⟨IV, 3, 97⟩ = unitComputation_spec IV 3 97 :=
  C8_unit_formula IV [97] ⟨IV, 3, 97⟩ (by decide)

/-- Claim C9: the non-linear transform maps `value` to
`(value XOR rotate_right(value, 23)) * PRIME mod (2^64 - 1)` with the
multiplication performed as wrapping 128-bit multiplication; it is a pure
total function. -/
theorem C9_nlt_formula :
    ∀ value : Nat, modular_non_linear_transform value = nonLinearTransform_spec value := by
  intro v
  rfl

/-- Claim C10 (implicit): every word of the merged final state is strictly
below 2^64, so the digest finalizer discards only zero bytes — the 32-byte
digest determines the entire final 4-word state. -/
theorem C10_bounded_words_lossless_truncation :
    ∀ input salt pepper : List Nat,
      wordsLt64 (finalState input salt pepper) ∧
      (∀ input2 salt2 pepper2 : List Nat,
        advanced_hash input salt pepper = advanced_hash input2 salt2 pepper2 →
        finalState input salt pepper = finalState input2 salt2 pepper2) := by
  intro i s p
  refine ⟨finalState_wordsLt i s p, ?_⟩
  intro i2 s2 p2 h
  exact finalize_inj (finalState_wordsLt i s p) (finalState_wordsLt i2 s2 p2) h

set_option maxRecDepth 1000000 in
/-- Witness for claim C10: two invocations with equal digests (duplicated
bytes cancel in the XOR merge) have equal final states. -/
theorem C10_bounded_words_lossless_truncation_witness :
    wordsLt64 (finalState [] [] []) ∧ finalState [97, 97] [] [] = finalState [] [] [] :=
  ⟨(C10_bounded_words_lossless_truncation [] [] []).1,
   (C10_bounded_words_lossless_truncation [97, 97] [] []).2 [] [] [] (by decide)⟩

end MPHC
